import Mathlib

/-!
Shallow embedding of the probabilistic loss/damage computation engine of
openquake.risklib.scientific (oq-hazardlib, file
src/openquake/risklib/scientific.py). Machine floats are modelled as exact
rationals; where IEEE NaN behaviour matters, a dedicated float type with a
NaN element is used. The transcendental exponential appears through
Real.exp in the statements about probabilities of exceedance.
-/

/-- Maximum of a list of rationals, with a default for the empty list
(Python max over a sequence; the default is only used when the list is
empty, where Python raises). -/
def listMaxD (l : List ℚ) (d : ℚ) : ℚ :=
  match l with
  | [] => d
  | x :: xs => xs.foldl max x

/-- Minimum of a list of rationals with a default for the empty list. -/
def listMinD (l : List ℚ) (d : ℚ) : ℚ :=
  match l with
  | [] => d
  | x :: xs => xs.foldl min x

/-- The loop body of Python bisect.bisect_right: binary search for the
insertion point that comes after (to the right of) any entries equal to x.
The while loop runs while lo < hi; it is realised with a fuel argument, the
interval length shrinks at every iteration so any fuel of at least the list
length is enough. The comparison used by the Python loop is x < a[mid],
passed here as lt (for the float model a comparison with NaN is false). -/
def bisectGo {α : Type} (lt : α → α → Bool) (a : List α) (x : α) :
    ℕ → ℕ → ℕ → ℕ
  | 0, lo, _ => lo
  | fuel + 1, lo, hi =>
    if lo < hi then
      if lt x (a.getD ((lo + hi) / 2) x) then bisectGo lt a x fuel lo ((lo + hi) / 2)
      else bisectGo lt a x fuel ((lo + hi) / 2 + 1) hi
    else lo

/-- Python bisect.bisect_right(a, x): lo starts at 0 and hi at len(a). -/
def bisectRight {α : Type} (lt : α → α → Bool) (a : List α) (x : α) : ℕ :=
  bisectGo lt a x (a.length + 1) 0 a.length

/-- Largest loss ratio among the entries whose PoE equals the target
probability: the expression
max([loss for i, loss in enumerate(loss_ratios) if probability == poes[i]])
of conditional_loss_ratio. -/
def matchingMax (loss_ratios poes : List ℚ) (probability : ℚ) : ℚ :=
  listMaxD (((loss_ratios.zip poes).filter
    (fun p => p.2 == probability)).map Prod.fst) 0

/-- Embedding of scientific.conditional_loss_ratio
(src/openquake/risklib/scientific.py lines 992-1038) over exact rationals.
The negative-index Python slices poes[-2:] and
poes[-interval_index-1:-interval_index+1] are written with explicit
indices n-2, n-1 and n-ii-1, n-ii; for interval_index == 1 the two forms
select the same two final elements, which is why the source's elif branch
and the general branch collapse to the same indices here. In the branch
where the source returns float nan (bisection index equal to the full
length, reachable only with NaN PoEs, see the float model further below)
this rational embedding returns 0; the branch is unreachable for the
numeric, monotone inputs of the theorems about this definition. -/
def conditional_loss_ratio (loss_ratios poes : List ℚ) (probability : ℚ) : ℚ :=
  let n := poes.length
  if probability > poes.headD 0 then 0
  else if probability < poes.getLastD 0 then loss_ratios.getLastD 0
  else if poes.contains probability then matchingMax loss_ratios poes probability
  else
    let ii := bisectRight (fun a b : ℚ => decide (a < b)) poes.reverse probability
    if ii = n then 0
    else
      let x1 := poes.getD (n - ii - 1) 0
      let x2 := poes.getD (n - ii) 0
      let y1 := loss_ratios.getD (n - ii - 1) 0
      let y2 := loss_ratios.getD (n - ii) 0
      (y2 - y1) / (x2 - x1) * (probability - x1) + y1

/-- The four prioritized cases of conditional_loss_ratio as the
specification words them: (1) a probability above the maximum PoE gives 0;
(2) a probability below the minimum PoE gives the maximum loss ratio;
(3) an exact PoE match gives the largest matching loss ratio;
(4) otherwise, linear interpolation between the two bracketing points
located by right-bisection of the reversed PoE sequence, the last usable
interval using the final two curve points. -/
def conditional_loss_ratio_spec (loss_ratios poes : List ℚ)
    (probability : ℚ) : ℚ :=
  let n := poes.length
  if probability > listMaxD poes 0 then 0
  else if probability < listMinD poes 0 then listMaxD loss_ratios 0
  else if poes.contains probability then matchingMax loss_ratios poes probability
  else
    let ii := bisectRight (fun a b : ℚ => decide (a < b)) poes.reverse probability
    let x1 := poes.getD (n - ii - 1) 0
    let x2 := poes.getD (n - ii) 0
    let y1 := loss_ratios.getD (n - ii - 1) 0
    let y2 := loss_ratios.getD (n - ii) 0
    (y2 - y1) / (x2 - x1) * (probability - x1) + y1

lemma foldl_max_of_le (x : ℚ) (xs : List ℚ) (h : ∀ y ∈ xs, y ≤ x) :
    xs.foldl max x = x := by
  induction xs with
  | nil => rfl
  | cons y ys ih =>
    have hyx : y ≤ x := h y (List.mem_cons_self y ys)
    have : max x y = x := max_eq_left hyx
    simp only [List.foldl_cons, this]
    exact ih (fun z hz => h z (List.mem_cons_of_mem y hz))

lemma foldl_min_of_le (x : ℚ) (xs : List ℚ) (h : ∀ y ∈ xs, x ≤ y) :
    xs.foldl min x = x := by
  induction xs with
  | nil => rfl
  | cons y ys ih =>
    have hyx : x ≤ y := h y (List.mem_cons_self y ys)
    have : min x y = x := min_eq_left hyx
    simp only [List.foldl_cons, this]
    exact ih (fun z hz => h z (List.mem_cons_of_mem y hz))

/-- On a non-empty non-increasing list the head is the maximum. -/
lemma headD_eq_listMaxD (l : List ℚ) (d : ℚ) (hne : l ≠ [])
    (hs : l.Sorted (· ≥ ·)) : l.headD d = listMaxD l d := by
  match l with
  | [] => exact absurd rfl hne
  | x :: xs =>
    have hall : ∀ y ∈ xs, y ≤ x := (List.sorted_cons.mp hs).1
    simp [listMaxD, foldl_max_of_le x xs hall]

/-- On a non-empty non-decreasing list the last element is the maximum. -/
lemma getLastD_eq_listMaxD (l : List ℚ) (d : ℚ) (hne : l ≠ [])
    (hs : l.Sorted (· ≤ ·)) : l.getLastD d = listMaxD l d := by
  induction l with
  | nil => exact absurd rfl hne
  | cons x xs ih =>
    match xs, ih with
    | [], _ => simp [listMaxD]
    | y :: ys, ih =>
      have hx : ∀ z ∈ (y :: ys), x ≤ z := (List.sorted_cons.mp hs).1
      have hxy : x ≤ y := hx y (List.mem_cons_self y ys)
      have htail : (y :: ys).Sorted (· ≤ ·) := (List.sorted_cons.mp hs).2
      have hrec := ih (by simp) htail
      calc (x :: y :: ys).getLastD d = (y :: ys).getLastD d := by
            simp [List.getLastD_cons]
        _ = listMaxD (y :: ys) d := hrec
        _ = listMaxD (x :: y :: ys) d := by
            simp [listMaxD, max_eq_right hxy]

/-- On a non-empty non-increasing list the last element is the minimum. -/
lemma getLastD_eq_listMinD (l : List ℚ) (d : ℚ) (hne : l ≠ [])
    (hs : l.Sorted (· ≥ ·)) : l.getLastD d = listMinD l d := by
  induction l with
  | nil => exact absurd rfl hne
  | cons x xs ih =>
    match xs, ih with
    | [], _ => simp [listMinD]
    | y :: ys, ih =>
      have hx : ∀ z ∈ (y :: ys), z ≤ x := (List.sorted_cons.mp hs).1
      have hxy : y ≤ x := hx y (List.mem_cons_self y ys)
      have htail : (y :: ys).Sorted (· ≥ ·) := (List.sorted_cons.mp hs).2
      have hrec := ih (by simp) htail
      calc (x :: y :: ys).getLastD d = (y :: ys).getLastD d := by
            simp [List.getLastD_cons]
        _ = listMinD (y :: ys) d := hrec
        _ = listMinD (x :: y :: ys) d := by
            simp [listMinD, min_eq_right hxy]

/-- If the comparison against the last list element succeeds, the binary
search can never reach the full length: the insertion point stays inside
the list. -/
lemma bisectGo_lt_length {α : Type} (lt : α → α → Bool) (a : List α) (x : α)
    (hlast : lt x (a.getD (a.length - 1) x) = true) :
    ∀ fuel lo hi, lo < a.length → hi ≤ a.length →
      bisectGo lt a x fuel lo hi < a.length := by
  intro fuel
  induction fuel with
  | zero => intro lo hi hlo _; simpa [bisectGo] using hlo
  | succ n ih =>
    intro lo hi hlo hhi
    by_cases hlh : lo < hi
    · cases hcmp : lt x (a.getD ((lo + hi) / 2) x) with
      | true =>
        have hmid : (lo + hi) / 2 ≤ a.length := by omega
        simp only [bisectGo, if_pos hlh, hcmp, if_true]
        exact ih lo ((lo + hi) / 2) hlo hmid
      | false =>
        have hne : (lo + hi) / 2 ≠ a.length - 1 := by
          intro he
          rw [he, hlast] at hcmp
          exact absurd hcmp (by simp)
        have h1 : (lo + hi) / 2 + 1 < a.length := by omega
        simp only [bisectGo, if_pos hlh, hcmp, Bool.false_eq_true, if_false]
        exact ih ((lo + hi) / 2 + 1) hi h1 hhi
    · simp only [bisectGo, if_neg hlh]
      exact hlo

lemma bisectRight_lt_length {α : Type} (lt : α → α → Bool) (a : List α)
    (x : α) (hne : a ≠ [])
    (hlast : lt x (a.getD (a.length - 1) x) = true) :
    bisectRight lt a x < a.length := by
  have hpos : 0 < a.length := List.length_pos.mpr hne
  exact bisectGo_lt_length lt a x hlast (a.length + 1) 0 a.length hpos le_rfl

/-- When every comparison fails (as with all-NaN list entries), the loop
always moves the lower bound and the search returns the full upper bound. -/
lemma bisectGo_all_false {α : Type} (lt : α → α → Bool) (a : List α) (x : α)
    (h : ∀ i, lt x (a.getD i x) = false) :
    ∀ fuel lo hi, lo ≤ hi → hi - lo ≤ fuel →
      bisectGo lt a x fuel lo hi = hi := by
  intro fuel
  induction fuel with
  | zero =>
    intro lo hi hle hfuel
    have : lo = hi := by omega
    simpa [bisectGo] using this
  | succ n ih =>
    intro lo hi hle hfuel
    by_cases hlh : lo < hi
    · simp only [bisectGo, if_pos hlh, h ((lo + hi) / 2), Bool.false_eq_true,
        if_false]
      exact ih ((lo + hi) / 2 + 1) hi (by omega) (by omega)
    · have : lo = hi := by omega
      simp [bisectGo, if_neg hlh, this]

lemma bisectRight_all_false {α : Type} (lt : α → α → Bool) (a : List α)
    (x : α) (h : ∀ i, lt x (a.getD i x) = false) :
    bisectRight lt a x = a.length :=
  bisectGo_all_false lt a x h (a.length + 1) 0 a.length (Nat.zero_le _)
    (by omega)

/-- The last element of the reversed list (with an arbitrary default) is
the head of the list. -/
lemma reverse_getD_last {α : Type} (l : List α) (d : α) (hne : l ≠ []) :
    l.reverse.getD (l.length - 1) d = l.headD d := by
  match l with
  | [] => exact absurd rfl hne
  | x :: xs =>
    have hlen : (x :: xs).length - 1 = xs.reverse.length := by simp
    rw [hlen]
    simp [List.reverse_cons, List.getD_append_right]

/-- C1: for every pair of sequences (loss_ratios non-decreasing, poes
non-increasing, both non-empty and of equal length) and every target
probability, conditional_loss_ratio returns: 0 when the probability exceeds
the maximum PoE; the maximum loss ratio when it is below the minimum PoE;
the largest loss ratio among exactly matching PoE entries; and otherwise
the linear interpolation between the two bracketing points located by
right-bisection on the reversed PoE sequence, with the last-interval
boundary using the final two curve points - the four cases checked in that
priority order (conditional_loss_ratio_spec states exactly those prioritized
cases in the specification's terms). -/
theorem conditional_loss_ratio_four_cases
    (loss_ratios poes : List ℚ) (probability : ℚ)
    (hpne : poes ≠ []) (hlne : loss_ratios ≠ [])
    (hlen : loss_ratios.length = poes.length)
    (hlr : loss_ratios.Sorted (· ≤ ·))
    (hpo : poes.Sorted (· ≥ ·)) :
    conditional_loss_ratio loss_ratios poes probability =
      conditional_loss_ratio_spec loss_ratios poes probability := by
  unfold conditional_loss_ratio conditional_loss_ratio_spec
  rw [← headD_eq_listMaxD poes 0 hpne hpo,
      ← getLastD_eq_listMinD poes 0 hpne hpo,
      ← getLastD_eq_listMaxD loss_ratios 0 hlne hlr]
  simp only []
  split_ifs with h1 h2 h3 h4
  · rfl
  · rfl
  · rfl
  · -- in the final else branch the bisection index is strictly below the
    -- length, so the source's nan branch is not taken; contradiction here
    exfalso
    have hhead : probability < poes.headD 0 := by
      have hle : probability ≤ poes.headD 0 := not_lt.mp h1
      rcases lt_or_eq_of_le hle with h | h
      · exact h
      · exfalso
        apply h3
        cases poes with
        | nil => exact absurd rfl hpne
        | cons p ps =>
          simp only [List.headD_cons] at h
          simp [List.contains, h]
    have hlast : (fun a b : ℚ => decide (a < b)) probability
        (poes.reverse.getD (poes.reverse.length - 1) probability) = true := by
      rw [List.length_reverse, reverse_getD_last poes probability hpne]
      have : poes.headD probability = poes.headD 0 := by
        cases poes with
        | nil => exact absurd rfl hpne
        | cons p ps => rfl
      rw [this]
      exact decide_eq_true hhead
    have := bisectRight_lt_length (fun a b : ℚ => decide (a < b))
      poes.reverse probability (by simpa using hpne) hlast
    rw [List.length_reverse] at this
    omega
  · rfl

/-- Witness for C1 at the specification's concrete fixture: the curve
loss_ratios [0, 0.5, 1], poes [0.9, 0.5, 0.1] and target probability 0.3. -/
theorem conditional_loss_ratio_four_cases_witness :
    ([(9:ℚ)/10, 1/2, 1/10] ≠ ([] : List ℚ)) ∧
    ([(0:ℚ), 1/2, 1] ≠ ([] : List ℚ)) ∧
    [(0:ℚ), 1/2, 1].length = [(9:ℚ)/10, 1/2, 1/10].length ∧
    [(0:ℚ), 1/2, 1].Sorted (· ≤ ·) ∧
    [(9:ℚ)/10, 1/2, 1/10].Sorted (· ≥ ·) ∧
    conditional_loss_ratio [0, 1/2, 1] [9/10, 1/2, 1/10] (3/10) =
      conditional_loss_ratio_spec [0, 1/2, 1] [9/10, 1/2, 1/10] (3/10) :=
  ⟨by simp, by simp, by rfl, by norm_num [List.sorted_cons],
    by norm_num [List.sorted_cons],
    conditional_loss_ratio_four_cases [0, 1/2, 1] [9/10, 1/2, 1/10] (3/10)
      (by simp) (by simp) (by rfl) (by norm_num [List.sorted_cons])
      (by norm_num [List.sorted_cons])⟩

/-- A minimal model of an IEEE double for the NaN-sensitive paths of the
curve inversion: either an ordinary (finite) value, carried exactly as a
rational, or NaN. Infinities are not modelled; no theorem below evaluates
an operation that would produce one. -/
inductive F where
  | num (q : ℚ)
  | nan
deriving DecidableEq

/-- Float less-than: every comparison involving NaN is false. -/
def flt : F → F → Bool
  | F.num a, F.num b => decide (a < b)
  | _, _ => false

/-- Float greater-than: every comparison involving NaN is false. -/
def fgt : F → F → Bool
  | F.num a, F.num b => decide (b < a)
  | _, _ => false

/-- Float equality test (Python ==): NaN compares unequal to everything,
itself included. -/
def feq : F → F → Bool
  | F.num a, F.num b => a == b
  | _, _ => false

/-- Float subtraction; NaN propagates. -/
def fsub : F → F → F
  | F.num a, F.num b => F.num (a - b)
  | _, _ => F.nan

/-- Float addition; NaN propagates. -/
def fadd : F → F → F
  | F.num a, F.num b => F.num (a + b)
  | _, _ => F.nan

/-- Float multiplication; NaN propagates. -/
def fmul : F → F → F
  | F.num a, F.num b => F.num (a * b)
  | _, _ => F.nan

/-- Float division; NaN propagates. A zero divisor is mapped to NaN as
well (IEEE would give an infinity or NaN; the distinction never matters
below because no theorem reaches a zero divisor). -/
def fdiv : F → F → F
  | F.num a, F.num b => if b = 0 then F.nan else F.num (a / b)
  | _, _ => F.nan

/-- Python max over a list of floats: keep the current value unless the
next item compares strictly greater (so with NaN entries the first element
wins every comparison). Empty input gives NaN (Python raises there). -/
def fmaxList (l : List F) : F :=
  match l with
  | [] => F.nan
  | x :: xs => xs.foldl (fun acc y => if fgt y acc then y else acc) x

/-- Embedding of scientific.conditional_loss_ratio over the float model F,
faithful to the NaN comparison semantics of the source: the same code as
the rational embedding above, with NaN-aware comparisons, membership test
and arithmetic, and with the source's float nan result in the branch where
the right-bisection of the reversed PoE sequence returns the full
length. -/
def conditional_loss_ratio_f (loss_ratios poes : List F) (probability : F) : F :=
  let n := poes.length
  if fgt probability (poes.headD F.nan) then F.num 0
  else if flt probability (poes.getLastD F.nan) then loss_ratios.getLastD F.nan
  else if poes.any (fun p => feq probability p) then
    fmaxList (((loss_ratios.zip poes).filter
      (fun p => feq probability p.2)).map Prod.fst)
  else
    let ii := bisectRight flt poes.reverse probability
    if ii = n then F.nan
    else
      let x1 := poes.getD (n - ii - 1) F.nan
      let x2 := poes.getD (n - ii) F.nan
      let y1 := loss_ratios.getD (n - ii - 1) F.nan
      let y2 := loss_ratios.getD (n - ii) F.nan
      fadd (fmul (fdiv (fsub y2 y1) (fsub x2 x1)) (fsub probability x1)) y1

/-- The last element (with default) of a non-empty list is a member. -/
lemma getLastD_mem_of_ne_nil {α : Type} (l : List α) (d : α) (h : l ≠ []) :
    l.getLastD d ∈ l := by
  match l with
  | [x] => simp [List.getLastD]
  | x :: y :: t =>
    have ih := getLastD_mem_of_ne_nil (y :: t) d (by simp)
    rw [List.getLastD_cons]
    exact List.mem_cons_of_mem x ih

/-- C10: when every PoE entry is NaN and the target probability is an
ordinary number, conditional_loss_ratio falls through its first three cases
(every comparison or equality test against NaN is false), the
right-bisection of the reversed PoE sequence returns the full length, and
the function silently returns NaN instead of raising an error. -/
theorem conditional_loss_ratio_all_nan (loss_ratios poes : List F) (q : ℚ)
    (hne : poes ≠ []) (hall : ∀ x ∈ poes, x = F.nan) :
    conditional_loss_ratio_f loss_ratios poes (F.num q) = F.nan := by
  have hhead : poes.headD F.nan = F.nan := by
    cases poes with
    | nil => exact absurd rfl hne
    | cons p ps => exact hall p (List.mem_cons_self p ps)
  have hlast : poes.getLastD F.nan = F.nan :=
    hall _ (getLastD_mem_of_ne_nil poes F.nan hne)
  have han : poes.any (fun p => feq (F.num q) p) = false := by
    rw [List.any_eq_false]
    intro x hx
    rw [hall x hx]
    simp [feq]
  have hbis : bisectRight flt poes.reverse (F.num q) = poes.reverse.length := by
    apply bisectRight_all_false
    intro i
    by_cases hi : i < poes.reverse.length
    · have hmem : poes.reverse.getD i (F.num q) ∈ poes.reverse := by
        rw [List.getD_eq_getElem _ _ hi]
        exact List.getElem_mem hi
      rw [hall _ (List.mem_reverse.mp hmem)]
      rfl
    · rw [List.getD_eq_default _ _ (not_lt.mp hi)]
      simp [flt]
  have h1 : fgt (F.num q) F.nan = false := rfl
  have h2 : flt (F.num q) F.nan = false := rfl
  unfold conditional_loss_ratio_f
  rw [List.length_reverse] at hbis
  simp only [hhead, hlast, h1, h2, Bool.false_eq_true, if_false, han, hbis,
    if_pos rfl, if_true]

/-- Witness for C10: a two-point curve whose PoEs are both NaN and the
numeric probability 0.5 produce NaN. -/
theorem conditional_loss_ratio_all_nan_witness :
    ([F.nan, F.nan] ≠ ([] : List F)) ∧
    (∀ x ∈ [F.nan, F.nan], x = F.nan) ∧
    conditional_loss_ratio_f [F.num 0, F.num 1] [F.nan, F.nan]
      (F.num (1/2)) = F.nan :=
  ⟨by simp, by decide,
    conditional_loss_ratio_all_nan [F.num 0, F.num 1] [F.nan, F.nan] (1/2)
      (by simp) (by decide)⟩

/-- Embedding of DegenerateDistribution.survival: the source evaluates
numpy.piecewise(loss_ratio, [loss_ratio > mean or not mean], [0, 1]),
which is 0 when loss_ratio > mean or mean == 0 (Python not mean), else 1.
The stddev argument of the source is unused. -/
def degenerate_survival (loss_ratio mean : ℚ) : ℚ :=
  if loss_ratio > mean ∨ mean = 0 then 0 else 1

/-- Counterexample to C4 as stated: the claim says a zero mean yields
survival 1 whenever loss_ratio <= 0, but at loss_ratio = 0, mean = 0 the
source's condition (not mean) is true and the function returns 0, not 1. -/
theorem degenerate_survival_zero_zero :
    degenerate_survival 0 0 = 0 ∧ degenerate_survival 0 0 ≠ 1 := by
  constructor
  · simp [degenerate_survival]
  · simp [degenerate_survival]

/-- C4 (amended): DegenerateDistribution.survival returns 1 exactly when
loss_ratio <= mean and mean != 0; in every other case, in particular for
every loss_ratio when mean == 0 (including loss_ratio <= 0), it
returns 0. -/
theorem degenerate_survival_step (loss_ratio mean : ℚ) :
    degenerate_survival loss_ratio mean =
      if loss_ratio ≤ mean ∧ mean ≠ 0 then 1 else 0 := by
  unfold degenerate_survival
  by_cases hm : mean = 0
  · simp [hm]
  · by_cases hle : loss_ratio ≤ mean
    · rw [if_neg (not_or.mpr ⟨not_lt.mpr hle, hm⟩), if_pos ⟨hle, hm⟩]
    · rw [if_pos (Or.inl (not_le.mp hle)), if_neg (by tauto)]

/-- numpy clip(x, lo, hi): values below lo become lo, above hi become hi
(for lo <= hi this is min(max(x, lo), hi)). -/
def clip (x lo hi : ℚ) : ℚ := min (max x lo) hi

/-- The columns of a rectangular 2D array stored row-major as a list of
equal-length rows (the transpose that numpy.sort(arr, axis=0) followed by
.transpose() walks over); the column count is taken from the first row,
as numpy takes it from the common row shape. -/
def columns (values : List (List ℚ)) : List (List ℚ) :=
  (List.range (values.headD []).length).map
    (fun j => values.map (fun row => row.getD j 0))

lemma getD_range_map {α : Type} [Inhabited α] (f : ℕ → α) (n i : ℕ)
    (hi : i < n) (d : α) : ((List.range n).map f).getD i d = f i := by
  rw [List.getD_eq_getElem _ _ (by simpa using hi)]
  simp

/-- Ascending sort (numpy.sort on a column); realised with Mathlib's
insertion sort, which agrees with any sorting algorithm on the values. -/
def sortAsc (l : List ℚ) : List ℚ := l.insertionSort (· ≤ ·)

/-- Embedding of scientific.quantile_curve in the unweighted case
(weights=None): per column, the scipy mquantiles plotting position
m = 0.4 + p*0.2, aleph = n*p + m, k = floor(clip(aleph, 1, n-1)),
gamma = clip(aleph-k, 0, 1), interpolating the ascending-sorted column at
the 0-based positions k-1 and k. Meaningful for n >= 2 rows (with fewer,
numpy's negative indexing takes over and this embedding does not apply). -/
def quantile_curve (curves : List (List ℚ)) (quantile : ℚ) : List ℚ :=
  let n := curves.length
  let m := 2 / 5 + quantile * (1 / 5)
  let aleph := n * quantile + m
  let k : ℤ := Int.floor (clip aleph 1 ((n : ℚ) - 1))
  let gamma := clip (aleph - k) 0 1
  (columns curves).map (fun col =>
    let data := sortAsc col
    (1 - gamma) * data.getD (k - 1).toNat 0 + gamma * data.getD k.toNat 0)

/-- The classical sample-quantile plotting-position estimate on a single
coordinate's values, exactly as the specification words it. -/
def plotting_position (values : List ℚ) (p : ℚ) : ℚ :=
  let n := values.length
  let m := 2 / 5 + p * (1 / 5)
  let aleph := n * p + m
  let k : ℤ := Int.floor (clip aleph 1 ((n : ℚ) - 1))
  let gamma := clip (aleph - k) 0 1
  let s := sortAsc values
  (1 - gamma) * s.getD (k - 1).toNat 0 + gamma * s.getD k.toNat 0

/-- C2: for every family of n >= 2 equal-length curves and quantile
p in [0, 1], the unweighted quantile_curve equals, independently on each
coordinate, the plotting-position estimate computed over that coordinate's
column of values. -/
theorem quantile_curve_coordinatewise (curves : List (List ℚ)) (p : ℚ)
    (hn : 2 ≤ curves.length) (hp0 : 0 ≤ p) (hp1 : p ≤ 1)
    (j : ℕ) (hj : j < (curves.headD []).length) :
    (quantile_curve curves p).getD j 0 =
      plotting_position (curves.map (fun row => row.getD j 0)) p := by
  unfold quantile_curve plotting_position columns
  rw [List.map_map, getD_range_map _ _ _ hj]
  simp [List.length_map]

/-- Witness for C2 at the specification's fixture: two curves
[[0.1, 0.2], [0.3, 0.4]] at quantile 0.5, coordinate 0; the shared value
of both sides is also evaluated (m = 0.5, aleph = 1.5, k = 1,
gamma = 0.5 interpolate the sorted values 0.1 and 0.3 to 0.2). -/
theorem quantile_curve_coordinatewise_witness :
    2 ≤ ([[ (1:ℚ)/10, 2/10], [3/10, 4/10]] : List (List ℚ)).length ∧
    (0 : ℚ) ≤ 1/2 ∧ (1/2 : ℚ) ≤ 1 ∧
    (0 : ℕ) < (([[ (1:ℚ)/10, 2/10], [3/10, 4/10]] : List (List ℚ)).headD []).length ∧
    (quantile_curve [[1/10, 2/10], [3/10, 4/10]] (1/2)).getD 0 0 =
      plotting_position ([[ (1:ℚ)/10, 2/10], [3/10, 4/10]].map
        (fun row => row.getD 0 0)) (1/2) ∧
    plotting_position ([[ (1:ℚ)/10, 2/10], [3/10, 4/10]].map
        (fun row => row.getD 0 0)) (1/2) = 2/10 := by
  refine ⟨by norm_num, by norm_num, by norm_num, by norm_num, ?_, ?_⟩
  · exact quantile_curve_coordinatewise [[1/10, 2/10], [3/10, 4/10]] (1/2)
      (by norm_num) (by norm_num) (by norm_num) 0 (by norm_num)
  · norm_num [plotting_position, sortAsc, List.insertionSort,
      List.orderedInsert, clip]

lemma le_foldl_max (xs : List ℚ) (acc : ℚ) : acc ≤ xs.foldl max acc := by
  induction xs generalizing acc with
  | nil => exact le_refl acc
  | cons y ys ih => exact le_trans (le_max_left acc y) (ih (max acc y))

lemma mem_le_foldl_max (xs : List ℚ) (acc : ℚ) :
    ∀ y ∈ xs, y ≤ xs.foldl max acc := by
  induction xs generalizing acc with
  | nil => intro y hy; cases hy
  | cons z zs ih =>
    intro y hy
    rcases List.mem_cons.mp hy with h | h
    · subst h
      exact le_trans (le_max_right acc y) (le_foldl_max zs (max acc y))
    · exact ih (max acc z) y h

/-- Every member of a list is bounded by listMaxD. -/
lemma le_listMaxD (l : List ℚ) (d : ℚ) : ∀ y ∈ l, y ≤ listMaxD l d := by
  intro y hy
  match l, hy with
  | x :: xs, hy =>
    rcases List.mem_cons.mp hy with h | h
    · subst h; exact le_foldl_max xs y
    · exact mem_le_foldl_max xs x y h

/-- numpy.linspace(start, stop, num): num points start + (stop-start)*i/(num-1),
exact over rationals (for num = 1 the rational convention x/0 = 0 makes the
single point equal start, as numpy does). -/
def linspace (start stop : ℚ) (num : ℕ) : List ℚ :=
  (List.range num).map
    (fun i : ℕ => start + (stop - start) * (i : ℚ) / ((num : ℚ) - 1))

/-- The count (loss_values > loss).sum of event_based: how many sampled
loss values strictly exceed the reference loss. -/
def exceedance_count (loss_values : List ℚ) (loss : ℚ) : ℕ :=
  (loss_values.filter (fun v => decide (loss < v))).length

/-- The reference losses of scientific.event_based:
numpy.linspace(0, max(loss_values), curve_resolution). -/
def event_based_reference_losses (loss_values : List ℚ)
    (curve_resolution : ℕ) : List ℚ :=
  linspace 0 (listMaxD loss_values 0) curve_resolution

/-- Embedding of scientific.build_poes: 1 - exp(-counts/nses); the
exceedance counts are exact naturals, the exponential lives in the
reals. -/
noncomputable def build_poes (counts : List ℕ) (nses : ℚ) : List ℝ :=
  counts.map (fun c : ℕ => 1 - Real.exp (-((c : ℝ) / ((nses : ℝ)))))

/-- Embedding of scientific.event_based: the curve_resolution reference
losses from 0 to the maximum loss and, per reference loss, the PoE built
from its exceedance count with nses = 1/ses_ratio. -/
noncomputable def event_based (loss_values : List ℚ) (ses_ratio : ℚ)
    (curve_resolution : ℕ) : List ℚ × List ℝ :=
  (event_based_reference_losses loss_values curve_resolution,
   build_poes ((event_based_reference_losses loss_values
      curve_resolution).map (exceedance_count loss_values)) (1 / ses_ratio))

/-- Raising the reference loss can only lower the exceedance count. -/
lemma exceedance_count_antitone (loss_values : List ℚ) (l1 l2 : ℚ)
    (h : l1 ≤ l2) :
    exceedance_count loss_values l2 ≤ exceedance_count loss_values l1 := by
  unfold exceedance_count
  induction loss_values with
  | nil => simp
  | cons v t ih =>
    by_cases h2 : l2 < v
    · have h1 : l1 < v := lt_of_le_of_lt h h2
      simp only [List.filter_cons, decide_eq_true_eq, h1, h2, if_pos,
        decide_eq_true, List.length_cons]
      omega
    · by_cases h1 : l1 < v
      · simp only [List.filter_cons, decide_eq_true_eq, h1, h2]
        simp only [decide_eq_true, decide_eq_false h2, if_false,
          decide_eq_false_iff_not]
        simp only [if_pos, List.length_cons]
        omega
      · simp only [List.filter_cons, decide_eq_false h2, decide_eq_false h1,
          if_false]
        exact ih

/-- C5: for a non-empty array of loss values, positive ses_ratio and
resolution of at least 2, event_based returns curve_resolution reference
losses evenly spaced from 0 to the maximum loss value (coordinate i equals
max * i/(resolution-1), so the first is 0 and the last is the maximum),
and at each reference loss a PoE equal to 1 - exp(-count * ses_ratio)
where count is the number of loss values strictly greater than the
reference loss; the PoEs are non-increasing along the curve. -/
theorem event_based_curve (loss_values : List ℚ) (ses_ratio : ℚ) (res : ℕ)
    (hne : loss_values ≠ []) (hpos : 0 < ses_ratio) (hres : 2 ≤ res)
    (hnn : ∀ v ∈ loss_values, 0 ≤ v) :
    ((event_based loss_values ses_ratio res).1.length = res) ∧
    (∀ i, i < res → (event_based loss_values ses_ratio res).1.getD i 0 =
      listMaxD loss_values 0 * i / ((res : ℚ) - 1)) ∧
    ((event_based loss_values ses_ratio res).1.getD 0 0 = 0) ∧
    ((event_based loss_values ses_ratio res).1.getD (res - 1) 0 =
      listMaxD loss_values 0) ∧
    (∀ i, i < res → (event_based loss_values ses_ratio res).2.getD i 0 =
      1 - Real.exp (-((exceedance_count loss_values
        (listMaxD loss_values 0 * i / ((res : ℚ) - 1)) : ℝ) *
          (ses_ratio : ℝ)))) ∧
    (∀ i j, i ≤ j → j < res →
      (event_based loss_values ses_ratio res).2.getD j 0 ≤
        (event_based loss_values ses_ratio res).2.getD i 0) := by
  have hsr : (ses_ratio : ℝ) ≠ 0 := by
    exact_mod_cast ne_of_gt hpos
  have hd : ((res : ℚ) - 1) ≠ 0 := by
    have : (2 : ℚ) ≤ (res : ℚ) := by exact_mod_cast hres
    linarith
  have hM : 0 ≤ listMaxD loss_values 0 := by
    match loss_values, hne with
    | v :: t, _ =>
      exact le_trans (hnn v (List.mem_cons_self v t))
        (le_listMaxD (v :: t) 0 v (List.mem_cons_self v t))
  have hrefs : ∀ i, i < res →
      (event_based loss_values ses_ratio res).1.getD i 0 =
        listMaxD loss_values 0 * i / ((res : ℚ) - 1) := by
    intro i hi
    unfold event_based event_based_reference_losses linspace
    simp only []
    rw [getD_range_map _ _ _ hi]
    ring
  have hpoes : ∀ i, i < res →
      (event_based loss_values ses_ratio res).2.getD i 0 =
        1 - Real.exp (-((exceedance_count loss_values
          (listMaxD loss_values 0 * i / ((res : ℚ) - 1)) : ℝ) *
            (ses_ratio : ℝ))) := by
    intro i hi
    unfold event_based build_poes event_based_reference_losses linspace
    simp only [List.map_map]
    rw [getD_range_map _ _ _ hi]
    simp only [Function.comp]
    have harg : (0 : ℚ) + (listMaxD loss_values 0 - 0) * i / ((res : ℚ) - 1)
        = listMaxD loss_values 0 * i / ((res : ℚ) - 1) := by ring
    rw [harg]
    have hrw : ((exceedance_count loss_values
        (listMaxD loss_values 0 * i / ((res : ℚ) - 1)) : ℝ) /
          (((1 / ses_ratio : ℚ) : ℝ))) =
        ((exceedance_count loss_values
          (listMaxD loss_values 0 * i / ((res : ℚ) - 1)) : ℝ) *
            (ses_ratio : ℝ)) := by
      push_cast
      field_simp
    rw [hrw]
  refine ⟨?_, hrefs, ?_, ?_, hpoes, ?_⟩
  · unfold event_based event_based_reference_losses linspace
    simp
  · rw [hrefs 0 (by omega)]
    simp
  · rw [hrefs (res - 1) (by omega)]
    have hcast : ((res - 1 : ℕ) : ℚ) = (res : ℚ) - 1 := by
      have h1 : 1 ≤ res := by omega
      rw [Nat.cast_sub h1, Nat.cast_one]
    rw [hcast, mul_div_assoc, div_self hd, mul_one]
  · intro i j hij hj
    rw [hpoes i (by omega), hpoes j hj]
    have hrefmono : listMaxD loss_values 0 * i / ((res : ℚ) - 1) ≤
        listMaxD loss_values 0 * j / ((res : ℚ) - 1) := by
      have hdpos : (0 : ℚ) < (res : ℚ) - 1 := by
        have : (2 : ℚ) ≤ (res : ℚ) := by exact_mod_cast hres
        linarith
      apply div_le_div_of_nonneg_right ?_ hdpos.le
      have : (i : ℚ) ≤ (j : ℚ) := by exact_mod_cast hij
      exact mul_le_mul_of_nonneg_left this hM
    have hcount := exceedance_count_antitone loss_values _ _ hrefmono
    have hcr : ((exceedance_count loss_values
        (listMaxD loss_values 0 * j / ((res : ℚ) - 1)) : ℝ)) ≤
        ((exceedance_count loss_values
          (listMaxD loss_values 0 * i / ((res : ℚ) - 1)) : ℝ)) := by
      exact_mod_cast hcount
    have hsrnn : (0 : ℝ) ≤ (ses_ratio : ℝ) := by
      have : (0 : ℚ) ≤ ses_ratio := le_of_lt hpos
      exact_mod_cast this
    have hmul := mul_le_mul_of_nonneg_right hcr hsrnn
    have hexp := Real.exp_le_exp.mpr (neg_le_neg hmul)
    linarith

/-- Witness for C5 at the specification's fixture: loss values
[0, 10, 20, 30, 40], ses_ratio 1, resolution 5; the PoE at reference loss
0 is 1 - exp(-4) (four values strictly exceed 0) and the PoEs are
non-increasing. -/
theorem event_based_curve_witness :
    ([(0:ℚ), 10, 20, 30, 40] ≠ ([] : List ℚ)) ∧ (0 : ℚ) < 1 ∧ (2 : ℕ) ≤ 5 ∧
    (∀ v ∈ [(0:ℚ), 10, 20, 30, 40], 0 ≤ v) ∧
    (event_based [0, 10, 20, 30, 40] 1 5).2.getD 0 0 = 1 - Real.exp (-4) ∧
    (∀ i j, i ≤ j → j < 5 →
      (event_based [0, 10, 20, 30, 40] 1 5).2.getD j 0 ≤
        (event_based [0, 10, 20, 30, 40] 1 5).2.getD i 0) := by
  have h := event_based_curve [0, 10, 20, 30, 40] 1 5 (by simp) (by norm_num)
    (by norm_num) (by intro v hv; fin_cases hv <;> norm_num)
  refine ⟨by simp, by norm_num, by norm_num,
    by intro v hv; fin_cases hv <;> norm_num, ?_, h.2.2.2.2.2⟩
  have h0 := h.2.2.2.2.1 0 (by norm_num)
  rw [h0]
  have hcount : exceedance_count [(0:ℚ), 10, 20, 30, 40] 0 = 4 := by decide
  norm_num [hcount]

/-- Piecewise-linear interpolation over control points (x, y), as
scipy.interpolate.interp1d evaluates inside the support
[first x, last x]. Outside the support scipy raises instead; the callers
embedded below query it only inside the support (they clip above the
last point first), and so do the theorems about this definition. -/
def interp1d : List (ℚ × ℚ) → ℚ → ℚ
  | [], _ => 0
  | [(_, y)], _ => y
  | (x1, y1) :: (x2, y2) :: rest, x =>
    if x ≤ x2 then y1 + (y2 - y1) * (x - x1) / (x2 - x1)
    else interp1d ((x2, y2) :: rest) x

/-- The data of scientific.FragilityFunctionDiscrete: a limit state label,
IMLs with parallel PoE values, and an optional no-damage threshold. -/
structure FragilityFunctionDiscrete where
  limit_state : String
  imls : List ℚ
  poes : List ℚ
  no_damage_limit : Option ℚ

/-- FragilityFunctionDiscrete.__call__: 0 below the no-damage limit when
one is set, otherwise interpolation of the PoEs at the IML clipped from
above to the highest IML. -/
def ffd_call (ff : FragilityFunctionDiscrete) (iml : ℚ) : ℚ :=
  match ff.no_damage_limit with
  | some ndl =>
    if iml < ndl then 0
    else interp1d (ff.imls.zip ff.poes)
      (if iml > ff.imls.getLastD 0 then ff.imls.getLastD 0 else iml)
  | none =>
    interp1d (ff.imls.zip ff.poes)
      (if iml > ff.imls.getLastD 0 then ff.imls.getLastD 0 else iml)

/-- scientific.pairwise_diff: differences between a value and the next
value in the sequence (utils.pairwise pairs each value with its
successor). -/
def pairwise_diff (values : List ℚ) : List ℚ :=
  (values.zip values.tail).map (fun p => p.1 - p.2)

/-- Embedding of scientific.scenario_damage over discrete fragility
functions: evaluate every fragility function at the ground motion value,
prepend 1 and append 0, and take pairwise differences. -/
def scenario_damage (fragility_functions : List FragilityFunctionDiscrete)
    (gmv : ℚ) : List ℚ :=
  pairwise_diff (1 :: (fragility_functions.map (fun ff => ffd_call ff gmv) ++ [0]))

/-- The pairwise differences of x :: l telescope to x minus the last
element. -/
lemma pairwise_diff_sum (x : ℚ) (l : List ℚ) :
    (pairwise_diff (x :: l)).sum = x - (x :: l).getLastD 0 := by
  induction l generalizing x with
  | nil => simp [pairwise_diff]
  | cons y t ih =>
    have hstep : pairwise_diff (x :: y :: t) = (x - y) :: pairwise_diff (y :: t) := by
      simp [pairwise_diff]
    rw [hstep, List.sum_cons, ih y]
    simp only [List.getLastD_cons]
    ring

lemma pairwise_diff_length (l : List ℚ) (hne : l ≠ []) :
    (pairwise_diff l).length = l.length - 1 := by
  match l with
  | x :: t => simp [pairwise_diff, List.length_zip]

/-- Consecutively non-increasing values give non-negative pairwise
differences. -/
lemma pairwise_diff_nonneg (l : List ℚ) (h : l.Chain' (· ≥ ·)) :
    ∀ x ∈ pairwise_diff l, 0 ≤ x := by
  induction l with
  | nil => intro x hx; simp [pairwise_diff] at hx
  | cons a t ih =>
    match t, h with
    | [], _ => intro x hx; simp [pairwise_diff] at hx
    | b :: t2, h =>
      have hab : a ≥ b := (List.chain'_cons.mp h).1
      have ht : (b :: t2).Chain' (· ≥ ·) := (List.chain'_cons.mp h).2
      intro x hx
      have hstep : pairwise_diff (a :: b :: t2) =
          (a - b) :: pairwise_diff (b :: t2) := by
        simp [pairwise_diff]
      rw [hstep] at hx
      rcases List.mem_cons.mp hx with h1 | h1
      · subst h1; linarith
      · exact ih ht x h1

/-- C6 (amended): for every list of M discrete fragility functions and
ground-motion value, scenario_damage returns pairwise differences of the
1-prepended, 0-appended exceedance probabilities; the result always has
length M+1 and sums exactly to 1, and provided the evaluated exceedance
probabilities bracketed by 1 and 0 form a non-increasing chain (as holds
for fragility functions ordered by increasing damage severity with PoEs
within [0, 1]) every entry is non-negative. -/
theorem scenario_damage_fractions
    (ffs : List FragilityFunctionDiscrete) (gmv : ℚ)
    (hmono : (1 :: ((ffs.map (fun ff => ffd_call ff gmv)) ++ [0])).Chain'
      (· ≥ ·)) :
    (scenario_damage ffs gmv).length = ffs.length + 1 ∧
    (scenario_damage ffs gmv).sum = 1 ∧
    (∀ x ∈ scenario_damage ffs gmv, 0 ≤ x) := by
  refine ⟨?_, ?_, pairwise_diff_nonneg _ hmono⟩
  · unfold scenario_damage
    rw [pairwise_diff_length _ (by simp)]
    simp
  · unfold scenario_damage
    rw [pairwise_diff_sum]
    have hlast : ((1 : ℚ) :: ((ffs.map (fun ff => ffd_call ff gmv)) ++ [0])).getLastD 0 = 0 := by
      rw [List.getLastD_cons]
      induction ffs.map (fun ff => ffd_call ff gmv) with
      | nil => simp
      | cons a t iht =>
        rw [List.cons_append, List.getLastD_cons]
        cases t with
        | nil => simp
        | cons b t2 => exact iht
    rw [hlast]
    ring

/-- Counterexample to C6 as stated: nothing in scenario_damage orders the
evaluated exceedance probabilities, so fragility functions whose PoEs at
the ground-motion value increase with damage severity reversed (here
constant curves 0.2 and 0.5 queried at gmv 0.5) produce a negative
damage fraction: the output is [0.8, -0.3, 0.5]. -/
theorem scenario_damage_negative_fraction :
    scenario_damage
      [⟨"minor", [0, 1], [1/5, 1/5], none⟩,
       ⟨"major", [0, 1], [1/2, 1/2], none⟩] (1/2) = [4/5, -3/10, 1/2] ∧
    ¬ (∀ x ∈ scenario_damage
      [⟨"minor", [0, 1], [1/5, 1/5], none⟩,
       ⟨"major", [0, 1], [1/2, 1/2], none⟩] (1/2), 0 ≤ x) := by
  have heval : scenario_damage
      [⟨"minor", [0, 1], [1/5, 1/5], none⟩,
       ⟨"major", [0, 1], [1/2, 1/2], none⟩] (1/2) = [4/5, -3/10, 1/2] := by
    norm_num [scenario_damage, pairwise_diff, ffd_call, interp1d, List.zip]
  refine ⟨heval, ?_⟩
  intro hall
  have hneg := hall (-3/10) (by rw [heval]; simp)
  linarith

/-- Witness for C6 (amended) with properly ordered fragility functions:
constant PoE curves 0.5 and 0.2 queried at gmv 0.5 satisfy the
non-increasing chain hypothesis and give fractions [0.5, 0.3, 0.2]. -/
theorem scenario_damage_fractions_witness :
    ((1 : ℚ) :: (([⟨"minor", [0, 1], [1/2, 1/2], none⟩,
        ⟨"major", [0, 1], [1/5, 1/5], none⟩] :
          List FragilityFunctionDiscrete).map
        (fun ff => ffd_call ff (1/2)) ++ [0])).Chain' (· ≥ ·) ∧
    (scenario_damage [⟨"minor", [0, 1], [1/2, 1/2], none⟩,
      ⟨"major", [0, 1], [1/5, 1/5], none⟩] (1/2)).length = 2 + 1 ∧
    (scenario_damage [⟨"minor", [0, 1], [1/2, 1/2], none⟩,
      ⟨"major", [0, 1], [1/5, 1/5], none⟩] (1/2)).sum = 1 ∧
    (∀ x ∈ scenario_damage [⟨"minor", [0, 1], [1/2, 1/2], none⟩,
      ⟨"major", [0, 1], [1/5, 1/5], none⟩] (1/2), 0 ≤ x) := by
  have hchain : ((1 : ℚ) :: (([⟨"minor", [0, 1], [1/2, 1/2], none⟩,
      ⟨"major", [0, 1], [1/5, 1/5], none⟩] :
        List FragilityFunctionDiscrete).map
      (fun ff => ffd_call ff (1/2)) ++ [0])).Chain' (· ≥ ·) := by
    norm_num [ffd_call, interp1d, List.zip, List.chain'_cons]
  have h := scenario_damage_fractions
    [⟨"minor", [0, 1], [1/2, 1/2], none⟩,
     ⟨"major", [0, 1], [1/5, 1/5], none⟩] (1/2) hchain
  exact ⟨hchain, h.1, h.2.1, h.2.2⟩

/-- numpy.average(values, axis=0, weights=w) on a rectangular list of
rows: per column, the weighted sum of the column entries divided by the
total weight (numpy normalises by the weight sum). -/
def npAverage (values : List (List ℚ)) (w : List ℚ) : List ℚ :=
  (columns values).map
    (fun col => ((col.zip w).map (fun p => p.1 * p.2)).sum / w.sum)

/-- Embedding of scientific.mean_curve on curve-valued rows: a missing
weight argument, or the Python-falsy empty weight list, selects uniform
weights 1/n; a supplied non-empty weight vector must pass the assertion
that its sum is within 1e-12 of 1 (a failed assertion is modelled as
none), after which numpy.average requires one weight per row (a mismatch
raises, also modelled as none). -/
def mean_curve (values : List (List ℚ)) (weights : Option (List ℚ)) :
    Option (List ℚ) :=
  match weights with
  | none =>
    some (npAverage values
      (List.replicate values.length (1 / (values.length : ℚ))))
  | some w =>
    if w = [] then
      some (npAverage values
        (List.replicate values.length (1 / (values.length : ℚ))))
    else if |w.sum - 1| < 1 / 10 ^ 12 then
      if w.length = values.length then some (npAverage values w) else none
    else none

lemma zip_replicate_mul_sum (col : List ℚ) (c : ℚ) :
    ((col.zip (List.replicate col.length c)).map (fun p => p.1 * p.2)).sum
      = col.sum * c := by
  induction col with
  | nil => simp
  | cons x xs ih =>
    simp only [List.length_cons, List.replicate_succ, List.zip_cons_cons,
      List.map_cons, List.sum_cons, ih, List.sum_cons]
    ring

/-- C7: mean_curve with weights omitted computes the plain arithmetic
column mean with uniform weights 1/n; with a supplied (non-empty, one per
row) weight vector the call succeeds exactly when the weights sum to 1
within the strict 1e-12 absolute tolerance, and then returns the weighted
column mean. -/
theorem mean_curve_weight_handling (values : List (List ℚ))
    (hne : values ≠ []) :
    (mean_curve values none =
      some ((columns values).map
        (fun col => col.sum / (values.length : ℚ)))) ∧
    (∀ w : List ℚ, w ≠ [] → w.length = values.length →
      (((mean_curve values (some w)).isSome) ↔ |w.sum - 1| < 1 / 10 ^ 12) ∧
      (|w.sum - 1| < 1 / 10 ^ 12 →
        mean_curve values (some w) = some (npAverage values w))) := by
  have hn : (values.length : ℚ) ≠ 0 := by
    have : 0 < values.length := List.length_pos.mpr hne
    exact_mod_cast Nat.pos_iff_ne_zero.mp this
  have hred1 : mean_curve values none = some (npAverage values
      (List.replicate values.length (1 / (values.length : ℚ)))) := rfl
  have hred2 : ∀ w : List ℚ, mean_curve values (some w) =
      if w = [] then some (npAverage values
        (List.replicate values.length (1 / (values.length : ℚ))))
      else if |w.sum - 1| < 1 / 10 ^ 12 then
        if w.length = values.length then some (npAverage values w) else none
      else none := fun w => rfl
  constructor
  · rw [hred1]
    unfold npAverage
    congr 1
    apply List.map_congr_left
    intro col hcol
    have hcl : col.length = values.length := by
      unfold columns at hcol
      rcases List.mem_map.mp hcol with ⟨j, hj, rfl⟩
      simp
    rw [← hcl, zip_replicate_mul_sum, List.sum_replicate, hcl, nsmul_eq_mul]
    field_simp
  · intro w hwne hwlen
    constructor
    · constructor
      · intro hsome
        by_contra hbad
        rw [hred2 w, if_neg hwne, if_neg hbad] at hsome
        simp at hsome
      · intro hgood
        rw [hred2 w, if_neg hwne, if_pos hgood, if_pos hwlen]
        simp
    · intro hgood
      rw [hred2 w, if_neg hwne, if_pos hgood, if_pos hwlen]

/-- Witness for C7: two curves [[1, 2], [3, 4]]; omitted weights give the
arithmetic mean [2, 3], weights [0.6, 0.4] (sum 1) succeed, and weights
[0.6, 0.6] (sum 1.2) fail the assertion. -/
theorem mean_curve_weight_handling_witness :
    ([[ (1:ℚ), 2], [3, 4]] ≠ ([] : List (List ℚ))) ∧
    mean_curve [[(1:ℚ), 2], [3, 4]] none = some [2, 3] ∧
    mean_curve [[(1:ℚ), 2], [3, 4]] (some [3/5, 2/5]) =
      some (npAverage [[(1:ℚ), 2], [3, 4]] [3/5, 2/5]) ∧
    mean_curve [[(1:ℚ), 2], [3, 4]] (some [3/5, 3/5]) = none := by
  have h := mean_curve_weight_handling [[(1:ℚ), 2], [3, 4]] (by simp)
  refine ⟨by simp, ?_, ?_, ?_⟩
  · rw [h.1]
    norm_num [columns, List.range_succ, List.sum_cons, List.sum_nil]
  · exact (h.2 [3/5, 2/5] (by simp) (by simp)).2
      (by norm_num [List.sum_cons, List.sum_nil])
  · have hiff := (h.2 [3/5, 3/5] (by simp) (by simp)).1
    have hnot : ¬ ((mean_curve [[(1:ℚ), 2], [3, 4]]
        (some [3/5, 3/5])).isSome = true) := by
      rw [hiff]
      have habs : |(1:ℚ)/5| = 1/5 := abs_of_pos (by norm_num)
      norm_num [List.sum_cons, List.sum_nil, habs]
    exact Option.not_isSome_iff_eq_none.mp hnot

/-- The two distribution-name tags accepted by VulnerabilityFunction. -/
inductive DistName where
  | LN
  | BT
deriving DecidableEq

/-- The distribution object owned by a vulnerability function: the
degenerate distribution (chosen whenever all covs are zero), the
log-normal distribution with its optional epsilon matrix and mutable
sampling cursor asset_idx, or the beta distribution. -/
inductive DistObj where
  | degenerate
  | logNormal (epsilons : Option (List (List ℚ))) (asset_idx : ℕ)
  | beta
deriving DecidableEq

/-- The state of a scientific.VulnerabilityFunction object: its
construction parameters plus the distribution attribute rebuilt by
set_distribution. -/
structure VulnerabilityFunction where
  id : String
  imt : String
  imls : List ℚ
  mean_loss_ratios : List ℚ
  covs : List ℚ
  distribution_name : DistName
  distribution : DistObj
deriving DecidableEq

/-- VulnerabilityFunction.set_distribution: when some cov is positive the
registered distribution class for the name tag is instantiated (LN with
the given epsilons and a fresh cursor, BT stateless), otherwise the
degenerate distribution is used; the epsilons attribute assigned by the
source is carried only by the log-normal variant, the only one that
reads it. -/
def set_distribution (vf : VulnerabilityFunction)
    (epsilons : Option (List (List ℚ))) : VulnerabilityFunction :=
  if vf.covs.any (fun c => decide (0 < c)) then
    { vf with distribution :=
        match vf.distribution_name with
        | DistName.LN => DistObj.logNormal epsilons 0
        | DistName.BT => DistObj.beta }
  else { vf with distribution := DistObj.degenerate }

/-- VulnerabilityFunction.__init__ followed by init(): store the
construction parameters and set the distribution with no epsilons. -/
def mkVulnerabilityFunction (vf_id imt : String)
    (imls mean_loss_ratios covs : List ℚ) (dname : DistName) :
    VulnerabilityFunction :=
  set_distribution
    { id := vf_id, imt := imt, imls := imls,
      mean_loss_ratios := mean_loss_ratios, covs := covs,
      distribution_name := dname, distribution := DistObj.degenerate } none

/-- The construction-time checks of _check_vulnerability_data (and the
zero-loss-ratio/positive-cov check of __init__): strictly ascending
non-negative IMLs, matching lengths, non-negative loss ratios and covs,
and no zero loss ratio paired with a positive cov. -/
def validVulnerabilityData (imls loss_ratios covs : List ℚ) : Prop :=
  imls.Sorted (· < ·) ∧ (∀ x ∈ imls, 0 ≤ x) ∧
  covs.length = imls.length ∧ loss_ratios.length = imls.length ∧
  (∀ x ∈ loss_ratios, 0 ≤ x) ∧ (∀ x ∈ covs, 0 ≤ x) ∧
  (∀ p ∈ loss_ratios.zip covs, ¬(p.1 = 0 ∧ 0 < p.2))

/-- The plateau-collapsing loop of strictly_increasing on
(mean loss ratio, (iml, cov)) triples: an entry is skipped exactly when
its mean loss ratio equals the previously kept one. -/
def collapsePlateaus (previous : Option ℚ) :
    List (ℚ × ℚ × ℚ) → List (ℚ × ℚ × ℚ)
  | [] => []
  | t :: rest =>
    if previous = some t.1 then collapsePlateaus previous rest
    else t :: collapsePlateaus (some t.1) rest

/-- VulnerabilityFunction.strictly_increasing: keep the first occurrence
of each distinct consecutive mean loss ratio (with its iml and cov) and
rebuild the function through the constructor. -/
def strictly_increasing (vf : VulnerabilityFunction) :
    VulnerabilityFunction :=
  let kept := collapsePlateaus none
    (vf.mean_loss_ratios.zip (vf.imls.zip vf.covs))
  mkVulnerabilityFunction vf.id vf.imt (kept.map (fun t => t.2.1))
    (kept.map (fun t => t.1)) (kept.map (fun t => t.2.2))
    vf.distribution_name

lemma collapsePlateaus_head_ne (previous : Option ℚ)
    (l : List (ℚ × ℚ × ℚ)) :
    ∀ h, (collapsePlateaus previous l).head? = some h → previous ≠ some h.1 := by
  induction l generalizing previous with
  | nil => intro h hh; simp [collapsePlateaus] at hh
  | cons t rest ih =>
    intro h hh
    by_cases hp : previous = some t.1
    · rw [collapsePlateaus, if_pos hp] at hh
      exact ih previous h hh
    · rw [collapsePlateaus, if_neg hp] at hh
      simp only [List.head?_cons, Option.some_inj] at hh
      subst hh
      exact hp

lemma collapsePlateaus_chain (previous : Option ℚ)
    (l : List (ℚ × ℚ × ℚ)) :
    (collapsePlateaus previous l).Chain' (fun s t => s.1 ≠ t.1) := by
  induction l generalizing previous with
  | nil => simp [collapsePlateaus]
  | cons t rest ih =>
    by_cases hp : previous = some t.1
    · rw [collapsePlateaus, if_pos hp]
      exact ih previous
    · rw [collapsePlateaus, if_neg hp]
      rw [List.chain'_cons']
      refine ⟨?_, ih (some t.1)⟩
      intro y hy
      have := collapsePlateaus_head_ne (some t.1) rest y hy
      intro heq
      exact this (by rw [heq])

lemma collapsePlateaus_id (previous : Option ℚ) (l : List (ℚ × ℚ × ℚ))
    (hchain : l.Chain' (fun s t => s.1 ≠ t.1))
    (hhead : ∀ h, l.head? = some h → previous ≠ some h.1) :
    collapsePlateaus previous l = l := by
  induction l generalizing previous with
  | nil => rfl
  | cons t rest ih =>
    have hp : previous ≠ some t.1 := hhead t rfl
    rw [collapsePlateaus, if_neg hp]
    congr 1
    apply ih (some t.1) ((List.chain'_cons'.mp hchain).2)
    intro h hh heq
    have := (List.chain'_cons'.mp hchain).1 h hh
    rw [Option.some_inj] at heq
    exact this heq

lemma zip_projections (l : List (ℚ × ℚ × ℚ)) :
    (l.map (fun t => t.1)).zip ((l.map (fun t => t.2.1)).zip
      (l.map (fun t => t.2.2))) = l := by
  induction l with
  | nil => rfl
  | cons t rest ih => simp [ih]

lemma mkVF_id (a b : String) (i m c : List ℚ) (d : DistName) :
    (mkVulnerabilityFunction a b i m c d).id = a := by
  unfold mkVulnerabilityFunction set_distribution
  split_ifs <;> rfl

lemma mkVF_imt (a b : String) (i m c : List ℚ) (d : DistName) :
    (mkVulnerabilityFunction a b i m c d).imt = b := by
  unfold mkVulnerabilityFunction set_distribution
  split_ifs <;> rfl

lemma mkVF_imls (a b : String) (i m c : List ℚ) (d : DistName) :
    (mkVulnerabilityFunction a b i m c d).imls = i := by
  unfold mkVulnerabilityFunction set_distribution
  split_ifs <;> rfl

lemma mkVF_mean_loss_ratios (a b : String) (i m c : List ℚ) (d : DistName) :
    (mkVulnerabilityFunction a b i m c d).mean_loss_ratios = m := by
  unfold mkVulnerabilityFunction set_distribution
  split_ifs <;> rfl

lemma mkVF_covs (a b : String) (i m c : List ℚ) (d : DistName) :
    (mkVulnerabilityFunction a b i m c d).covs = c := by
  unfold mkVulnerabilityFunction set_distribution
  split_ifs <;> rfl

lemma mkVF_distribution_name (a b : String) (i m c : List ℚ) (d : DistName) :
    (mkVulnerabilityFunction a b i m c d).distribution_name = d := by
  unfold mkVulnerabilityFunction set_distribution
  split_ifs <;> rfl

/-- C8: strictly_increasing is idempotent on every validly constructed
vulnerability function: the first application leaves no consecutive
duplicate mean loss ratios, so the second keeps every entry and returns
an identical function (same imls, mean loss ratios, covs, id, imt,
distribution name, and hence the same rebuilt distribution). -/
theorem strictly_increasing_idempotent (vf : VulnerabilityFunction)
    (hvalid : validVulnerabilityData vf.imls vf.mean_loss_ratios vf.covs) :
    strictly_increasing (strictly_increasing vf) = strictly_increasing vf := by
  unfold strictly_increasing
  simp only [mkVF_id, mkVF_imt, mkVF_imls, mkVF_mean_loss_ratios, mkVF_covs,
    mkVF_distribution_name]
  rw [zip_projections]
  rw [collapsePlateaus_id none _ (collapsePlateaus_chain none _)
    (fun h _ => by simp)]

/-- Witness for C8: a valid three-point function with a plateau in the
mean loss ratios. -/
theorem strictly_increasing_idempotent_witness :
    validVulnerabilityData [1, 2, 3] [0, 0, 1] [0, 0, 0] ∧
    strictly_increasing (strictly_increasing
      (mkVulnerabilityFunction "vf1" "PGA" [1, 2, 3] [0, 0, 1] [0, 0, 0]
        DistName.LN)) =
      strictly_increasing (mkVulnerabilityFunction "vf1" "PGA" [1, 2, 3]
        [0, 0, 1] [0, 0, 0] DistName.LN) :=
  ⟨by constructor <;> decide,
    strictly_increasing_idempotent
      (mkVulnerabilityFunction "vf1" "PGA" [1, 2, 3] [0, 0, 1] [0, 0, 0]
        DistName.LN) (by constructor <;> decide)⟩

/-- The real-valued routines numpy.exp, numpy.log and numpy.sqrt used by
LogNormalDistribution.sample are fixed pure functions on floats; the
embedding abstracts the triple as a parameter, so the theorems below hold
for every implementation of them. -/
structure RealFuns where
  rexp : ℚ → ℚ
  rlog : ℚ → ℚ
  rsqrt : ℚ → ℚ

/-- BetaDistribution._alpha. -/
def betaAlpha (mean stddev : ℚ) : ℚ :=
  ((1 - mean) / stddev ^ 2 - 1 / mean) * mean ^ 2

/-- BetaDistribution._beta. -/
def betaBeta (mean stddev : ℚ) : ℚ :=
  ((1 - mean) / stddev ^ 2 - 1 / mean) * (mean - mean ^ 2)

/-- LogNormalDistribution.sample on one asset row:
sigma = sqrt(log(cov^2+1)), loss = mean/sqrt(1+cov^2) * exp(eps*sigma). -/
def logNormalSampleRow (R : RealFuns) (means covs eps : List ℚ) : List ℚ :=
  (means.zip (covs.zip eps)).map
    (fun t => t.1 / R.rsqrt (1 + t.2.1 ^ 2) *
      R.rexp (t.2.2 * R.rsqrt (R.rlog (t.2.1 ^ 2 + 1))))

/-- Modelled from the spec: numpy.random.beta (called by
BetaDistribution.sample) draws Beta-distributed variates from the
process-wide random generator, the implicit global random state named in
the specification's design notes; numpy itself is outside the repository.
It validates its parameters first and raises ValueError unless every
alpha and beta is positive (the fail-fast behaviour the spec's design
note demands for invalid reparametrisations), modelled as a none result;
at valid parameters the generator is modelled as a stream of pre-drawn
variates: each call consumes one entry per requested draw and the drawn
values are the consumed entries (the parameters select which abstract
stream the caller observes; they do not enter the state threading). -/
def betaSample (alphas betas : List ℚ) (rng : List ℚ) :
    Option (List ℚ) × List ℚ :=
  if alphas.all (fun a => decide (0 < a)) && betas.all (fun b => decide (0 < b)) then
    (some ((List.range alphas.length).map (fun i => rng.getD i 0)),
     rng.drop alphas.length)
  else (none, rng)

/-- One distribution sample call, threading the distribution object state
(the log-normal cursor) and the global random stream (consumed only by
the beta distribution). A log-normal distribution without epsilons fails
the call (the source raises ValueError), modelled as a none sample. -/
def distSample (R : RealFuns) (d : DistObj) (means covs stddevs : List ℚ)
    (idxs : List ℕ) (rng : List ℚ) :
    Option (List ℚ) × DistObj × List ℚ :=
  match d with
  | DistObj.degenerate => (some means, d, rng)
  | DistObj.logNormal none _ => (none, d, rng)
  | DistObj.logNormal (some epsm) cursor =>
    (some (logNormalSampleRow R means covs
       (idxs.map (fun j => (epsm.getD cursor []).getD j 0))),
     DistObj.logNormal (some epsm) (cursor + 1), rng)
  | DistObj.beta =>
    let drawn := betaSample ((means.zip stddevs).map
        (fun p => betaAlpha p.1 p.2))
      ((means.zip stddevs).map (fun p => betaBeta p.1 p.2)) rng
    (drawn.1, d, drawn.2)

/-- The _mlr_i1d interpolator of the vulnerability function. -/
def interpMlr (vf : VulnerabilityFunction) (x : ℚ) : ℚ :=
  interp1d (vf.imls.zip vf.mean_loss_ratios) x

/-- VulnerabilityFunction._cov_for: clip the iml into the support range
from both sides and interpolate the covs there. -/
def covFor (vf : VulnerabilityFunction) (x : ℚ) : ℚ :=
  interp1d (vf.imls.zip vf.covs)
    (if x > vf.imls.getLastD 0 then vf.imls.getLastD 0
     else if x < vf.imls.headD 0 then vf.imls.headD 0 else x)

/-- ret = zeros(n); ret[idxs] = vals: the scatter of the sampled losses
back into the zero-initialised result row. -/
def scatter (n : ℕ) (idxs : List ℕ) (vals : List ℚ) : List ℚ :=
  (List.range n).map (fun i =>
    match idxs.findIdx? (fun j => j == i) with
    | some k => vals.getD k 0
    | none => 0)

/-- VulnerabilityFunction._apply on one ground-motion row: clip the imls
to the support maximum, select the indices at or above the support
minimum (the others keep loss 0), interpolate means and covs there,
derive the stddevs as cov * iml, and sample the distribution. -/
def vfApplyRow (R : RealFuns) (vf : VulnerabilityFunction) (d : DistObj)
    (row : List ℚ) (rng : List ℚ) :
    Option (List ℚ) × DistObj × List ℚ :=
  let clipped := row.map
    (fun x => if x > vf.imls.getLastD 0 then vf.imls.getLastD 0 else x)
  let idxs := (List.range row.length).filter
    (fun i => decide (vf.imls.headD 0 ≤ clipped.getD i 0))
  let selected := idxs.map (fun i => clipped.getD i 0)
  let means := selected.map (interpMlr vf)
  let covs := selected.map (covFor vf)
  let stddevs := (covs.zip selected).map (fun p => p.1 * p.2)
  let s := distSample R d means covs stddevs idxs rng
  match s.1 with
  | none => (none, s.2.1, s.2.2)
  | some samples => (some (scatter row.length idxs samples), s.2.1, s.2.2)

/-- utils.numpy_map of _apply over the asset rows, in cursor order,
threading the distribution state and the random stream. -/
def applyRows (R : RealFuns) (vf : VulnerabilityFunction) :
    DistObj → List (List ℚ) → List ℚ →
      Option (List (List ℚ)) × List ℚ
  | _, [], rng => (some [], rng)
  | d, row :: rest, rng =>
    let step := vfApplyRow R vf d row rng
    match step.1 with
    | none => (none, step.2.2)
    | some r =>
      let next := applyRows R vf step.2.1 rest step.2.2
      match next.1 with
      | none => (none, next.2)
      | some rs => (some (r :: rs), next.2)

/-- VulnerabilityFunction.apply_to: assert equal row counts, copy the
function, rebind the copy's distribution to the given epsilons and map
_apply over the ground-motion rows. The second component is the state of
the receiver after the call (the copy, not the receiver, is rebound); the
third is the global random stream after the call. -/
def apply_to (R : RealFuns) (self : VulnerabilityFunction)
    (ground_motion_values epsilons : List (List ℚ)) (rng : List ℚ) :
    Option (List (List ℚ)) × VulnerabilityFunction × List ℚ :=
  if epsilons.length ≠ ground_motion_values.length then (none, self, rng)
  else
    let vfcopy := set_distribution self (some epsilons)
    let out := applyRows R vfcopy vfcopy.distribution
      ground_motion_values rng
    (out.1, self, out.2)

/-- C9: apply_to leaves the receiver's own state unchanged: the receiver
after the call is the same object state, so in particular its
distribution attribute and its construction parameters (imls, mean loss
ratios, covs) are what they were before the call; only a copy of the
function is bound to the epsilon context. -/
theorem apply_to_preserves_receiver (R : RealFuns)
    (vf : VulnerabilityFunction) (g e : List (List ℚ)) (rng : List ℚ) :
    (apply_to R vf g e rng).2.1 = vf ∧
    (apply_to R vf g e rng).2.1.distribution = vf.distribution ∧
    (apply_to R vf g e rng).2.1.imls = vf.imls ∧
    (apply_to R vf g e rng).2.1.mean_loss_ratios = vf.mean_loss_ratios ∧
    (apply_to R vf g e rng).2.1.covs = vf.covs := by
  have hm : (apply_to R vf g e rng).2.1 = vf := by
    unfold apply_to
    split_ifs <;> rfl
  exact ⟨hm, by rw [hm], by rw [hm], by rw [hm], by rw [hm]⟩

/-- A non-beta distribution sample neither reads nor advances the random
stream: one row application returns the same loss row and follow-up
distribution state for any stream, and the follow-up state is again
non-beta. -/
lemma vfApplyRow_rng_independent (R : RealFuns)
    (vf : VulnerabilityFunction) (d : DistObj) (row : List ℚ)
    (hd : d ≠ DistObj.beta) (s1 s2 : List ℚ) :
    (vfApplyRow R vf d row s1).1 = (vfApplyRow R vf d row s2).1 ∧
    (vfApplyRow R vf d row s1).2.1 = (vfApplyRow R vf d row s2).2.1 ∧
    (vfApplyRow R vf d row s1).2.1 ≠ DistObj.beta := by
  match d, hd with
  | DistObj.degenerate, _ =>
    refine ⟨rfl, rfl, ?_⟩
    simp [vfApplyRow, distSample]
  | DistObj.logNormal none c, _ =>
    refine ⟨rfl, rfl, ?_⟩
    simp [vfApplyRow, distSample]
  | DistObj.logNormal (some epsm) c, _ =>
    refine ⟨rfl, rfl, ?_⟩
    simp [vfApplyRow, distSample]

/-- Row-by-row application with a non-beta distribution state yields the
same loss matrix for any two random streams. -/
lemma applyRows_rng_independent (R : RealFuns)
    (vf : VulnerabilityFunction) (rows : List (List ℚ)) :
    ∀ (d : DistObj) (s1 s2 : List ℚ), d ≠ DistObj.beta →
      (applyRows R vf d rows s1).1 = (applyRows R vf d rows s2).1 := by
  induction rows with
  | nil => intro d s1 s2 _; rfl
  | cons row rest ih =>
    intro d s1 s2 hd
    have hv := vfApplyRow_rng_independent R vf d row hd s1 s2
    obtain ⟨ho, hd12, hnb⟩ := hv
    simp only [applyRows]
    rw [← ho, ← hd12]
    cases hcase : (vfApplyRow R vf d row s1).1 with
    | none => rfl
    | some r =>
      have hrec := ih (vfApplyRow R vf d row s1).2.1
        (vfApplyRow R vf d row s1).2.2 (vfApplyRow R vf d row s2).2.2 hnb
      simp only []
      rcases happ1 : applyRows R vf (vfApplyRow R vf d row s1).2.1 rest
        (vfApplyRow R vf d row s1).2.2 with ⟨ro1, rr1⟩
      rcases happ2 : applyRows R vf (vfApplyRow R vf d row s1).2.1 rest
        (vfApplyRow R vf d row s2).2.2 with ⟨ro2, rr2⟩
      rw [happ1, happ2] at hrec
      simp only at hrec
      rw [hrec]
      cases ro2 with
      | none => rfl
      | some rs => rfl

/-- The distribution bound by set_distribution is not the beta
distribution when the name tag is LN or no cov is positive. -/
lemma set_distribution_nonbeta (vf : VulnerabilityFunction)
    (e : Option (List (List ℚ)))
    (h : vf.distribution_name = DistName.LN ∨
      (vf.covs.any (fun c => decide (0 < c))) = false) :
    (set_distribution vf e).distribution ≠ DistObj.beta := by
  unfold set_distribution
  by_cases hany : (vf.covs.any (fun c => decide (0 < c))) = true
  · rw [if_pos hany]
    rcases h with hln | hfalse
    · rw [hln]
      simp
    · rw [hfalse] at hany
      cases hany
  · rw [if_neg hany]
    simp

/-- C3 (amended): apply_to is deterministic across two runs, independent
of the global random state, whenever the function's effective
distribution is not the beta distribution: for the LN name tag, or
whenever all covs are non-positive (then the degenerate distribution is
bound), the same (ground-motion, epsilon) inputs produce the same loss
matrix for any two states of the random stream; asset rows are processed
in cursor order by construction. The beta tag with a positive cov is
excluded: its sampling consumes the global stream. -/
theorem apply_to_rng_independent (R : RealFuns)
    (vf : VulnerabilityFunction) (g e : List (List ℚ)) (s1 s2 : List ℚ)
    (h : vf.distribution_name = DistName.LN ∨
      (vf.covs.any (fun c => decide (0 < c))) = false) :
    (apply_to R vf g e s1).1 = (apply_to R vf g e s2).1 := by
  unfold apply_to
  split_ifs with hlen
  · rfl
  · have hnb : (set_distribution vf (some e)).distribution ≠ DistObj.beta := by
      apply set_distribution_nonbeta
      rcases h with hln | hfalse
      · exact Or.inl hln
      · exact Or.inr hfalse
    exact applyRows_rng_independent R (set_distribution vf (some e)) g
      (set_distribution vf (some e)).distribution s1 s2 hnb

/-- Witness for C3 (amended): a log-normal vulnerability function with
positive covs applied to one asset and one realization gives the same
loss matrix under two different random streams. -/
theorem apply_to_rng_independent_witness :
    ((mkVulnerabilityFunction "vf" "PGA" [1, 3] [1, 1] [1, 1]
      DistName.LN).distribution_name = DistName.LN ∨
      (((mkVulnerabilityFunction "vf" "PGA" [1, 3] [1, 1] [1, 1]
        DistName.LN).covs.any (fun c => decide (0 < c))) = false)) ∧
    (apply_to ⟨id, id, id⟩ (mkVulnerabilityFunction "vf" "PGA" [1, 3]
      [1, 1] [1, 1] DistName.LN) [[2]] [[0]] [1]).1 =
    (apply_to ⟨id, id, id⟩ (mkVulnerabilityFunction "vf" "PGA" [1, 3]
      [1, 1] [1, 1] DistName.LN) [[2]] [[0]] [0]).1 :=
  ⟨Or.inl (mkVF_distribution_name "vf" "PGA" [1, 3] [1, 1] [1, 1]
      DistName.LN),
    apply_to_rng_independent ⟨id, id, id⟩
      (mkVulnerabilityFunction "vf" "PGA" [1, 3] [1, 1] [1, 1] DistName.LN)
      [[2]] [[0]] [1] [0]
      (Or.inl (mkVF_distribution_name "vf" "PGA" [1, 3] [1, 1] [1, 1]
        DistName.LN))⟩

/-- Counterexample to C3 as stated: a vulnerability function with the BT
tag and positive covs binds the beta distribution, whose sampling draws
from the global random stream; two runs on the same (ground-motion,
epsilon) inputs but different states of the stream produce different loss
matrices. At the interpolated mean 1/2 and stddev cov*iml = 1/20 * 2 =
1/10 the reparametrisation gives alpha = beta = 12, valid Beta
parameters, so the draw succeeds on both runs and returns the respective
stream entry. -/
theorem apply_to_beta_rng_dependent :
    (apply_to ⟨id, id, id⟩ (mkVulnerabilityFunction "vf" "PGA" [1, 3]
      [1/2, 1/2] [1/20, 1/20] DistName.BT) [[2]] [[0]] [1]).1 ≠
    (apply_to ⟨id, id, id⟩ (mkVulnerabilityFunction "vf" "PGA" [1, 3]
      [1/2, 1/2] [1/20, 1/20] DistName.BT) [[2]] [[0]] [0]).1 := by
  have h1 : (apply_to ⟨id, id, id⟩ (mkVulnerabilityFunction "vf" "PGA"
      [1, 3] [1/2, 1/2] [1/20, 1/20] DistName.BT) [[2]] [[0]] [1]).1 =
      some [[1]] := by
    norm_num [apply_to, applyRows, vfApplyRow, distSample, betaSample,
      scatter, set_distribution, mkVulnerabilityFunction, interpMlr,
      covFor, interp1d, betaAlpha, betaBeta, List.zip, List.range_succ,
      List.filter, List.all]
  have h0 : (apply_to ⟨id, id, id⟩ (mkVulnerabilityFunction "vf" "PGA"
      [1, 3] [1/2, 1/2] [1/20, 1/20] DistName.BT) [[2]] [[0]] [0]).1 =
      some [[0]] := by
    norm_num [apply_to, applyRows, vfApplyRow, distSample, betaSample,
      scatter, set_distribution, mkVulnerabilityFunction, interpMlr,
      covFor, interp1d, betaAlpha, betaBeta, List.zip, List.range_succ,
      List.filter, List.all]
  rw [h1, h0]
  simp
